import Mathlib

/-!
Verification of `src/algolia.js` (hexo-algoliasearch): a shallow embedding of
the content-transformation and batched-sync pipeline, with theorems settling
the specification's claims about it.

JavaScript values relevant to the pipeline are embedded as `JValue`; records
(hexo posts/pages) are association lists of own properties; documents built by
`prepareContents` are association lists with JS object key semantics
(insertion order, assignment replaces in place).  Fallible JS operations
(property access on `undefined`, calling an unregistered filter) are embedded
as `Option`, `none` standing for a thrown `TypeError`.
-/

namespace HexoAlgolia

/-- One taxonomy term object carried by a record's `tags`/`categories`
relation: a `name` plus arbitrary other per-term attributes. -/
structure TaxTerm where
  name : String
  attrs : List (String × String)
deriving Repr, DecidableEq

/-- Embedded JavaScript values flowing through the pipeline. `undef` is the
JS `undefined` produced by reading an absent property; `taxData` is a
taxonomy container object whose `data` property holds the term objects. -/
inductive JValue where
  | undef : JValue
  | str : String → JValue
  | arr : List JValue → JValue
  | taxData : List TaxTerm → JValue

/-- A raw content record (post or page): its own properties, in order. -/
structure RawContent where
  props : List (String × JValue)

/-- `record.hasOwnProperty(key)` of `src/algolia.js` usage. -/
def RawContent.hasOwnProperty (c : RawContent) (key : String) : Bool :=
  c.props.any (fun p => p.1 == key)

/-- Property read `record[key]`: the value when present, JS `undefined` when
absent. -/
def RawContent.get (c : RawContent) (key : String) : JValue :=
  match c.props.find? (fun p => p.1 == key) with
  | some p => p.2
  | none => JValue.undef

/-- An index document under construction: a JS object, i.e. an assoc list in
insertion order. -/
abbrev Doc := List (String × JValue)

/-- Object property read on a document. -/
def lookupDoc (d : Doc) (key : String) : Option JValue :=
  match d.find? (fun p => p.1 == key) with
  | some p => some p.2
  | none => none

/-- JS object assignment `d[key] = v`: replaces the value in place when the
key exists, otherwise appends the new key at the end. -/
def setKey (d : Doc) (key : String) (v : JValue) : Doc :=
  if d.any (fun p => p.1 == key) then
    d.map (fun p => if p.1 == key then (key, v) else p)
  else
    d ++ [(key, v)]

/-- `pick(object, attributes)` of `src/algolia.js`: copy, in `attributes`
order, each attribute the object owns into a fresh object. -/
def pick (object : RawContent) (attributes : List String) : Doc :=
  attributes.foldl
    (fun newObject attr =>
      if object.hasOwnProperty attr then
        setKey newObject attr (object.get attr)
      else newObject)
    []

/-- `upperFirst(string)` of `src/algolia.js`:
`string.charAt(0).toUpperCase() + string.slice(1)`. -/
def upperFirst (s : String) : String :=
  match s.toList with
  | [] => ""
  | c :: cs => String.mk (c.toUpper :: cs)

/-- The `while (newArrays.length) chunks.push(newArrays.splice(0, chunkSize))`
loop of `splitIntoChunks`, embedded with fuel: `splice(0, k)` removes and
returns the first `min k length` elements.  With `chunkSize = 0` the JS loop
never terminates on a nonempty array; exhausted fuel models that divergence by
stopping early, and every claim about the loop assumes `chunkSize > 0`, under
which `array.length` fuel always suffices. -/
def chunkLoop : Nat → List α → Nat → List (List α)
  | _, [], _ => []
  | 0, _ :: _, _ => []
  | fuel + 1, a :: as, k => (a :: as).take k :: chunkLoop fuel ((a :: as).drop k) k

/-- `splitIntoChunks(array, chunkSize)` of `src/algolia.js`: copy the array,
then repeatedly splice chunks of `chunkSize` off the front. -/
def splitIntoChunks (array : List α) (chunkSize : Nat) : List (List α) :=
  chunkLoop array.length array chunkSize

/-- A mutable-array heap: each JS array is a cell, a reference is an index. -/
abbrev Store (α : Type) := List (List α)

/-- Read the array behind a reference (absent references read as empty). -/
def Store.read (σ : Store α) (r : Nat) : List α :=
  σ.getD r []

/-- The splice loop of `splitIntoChunks` at heap level: the loop mutates only
the array behind `r` (the fresh copy), shifting its front off into chunks. -/
def heapChunkLoop (fuel : Nat) (σ : Store α) (r k : Nat) (chunks : List (List α)) :
    List (List α) × Store α :=
  match fuel, σ.read r with
  | _, [] => (chunks, σ)
  | 0, _ :: _ => (chunks, σ)
  | fuel + 1, a :: as =>
    heapChunkLoop fuel (σ.set r ((a :: as).drop k)) r k (chunks ++ [(a :: as).take k])

/-- `splitIntoChunks` at heap level: `array.slice(0)` allocates a fresh copy
at the end of the store, and the splice loop then mutates only that copy. -/
def splitIntoChunksHeap (σ : Store α) (r : Nat) (chunkSize : Nat) : List (List α) × Store α :=
  let arr := σ.read r
  heapChunkLoop arr.length (σ ++ [arr]) σ.length chunkSize []

/-- Modelled from the spec: the external `striptags` dependency bound to the
`strip` filter — "removes markup/tags from a text value, returning plain
text".  Embedded as the canonical tag-stripping automaton: characters between
`<` and the matching `>` are dropped, everything else is kept. -/
def striptagsGo : Bool → List Char → List Char
  | _, [] => []
  | false, c :: cs => if c == '<' then striptagsGo true cs else c :: striptagsGo false cs
  | true, c :: cs => if c == '>' then striptagsGo false cs else striptagsGo true cs

/-- Modelled from the spec: `striptags` on a whole string. -/
def striptags (s : String) : String := String.mk (striptagsGo false s.toList)

/-- `String.prototype.split` with a one-character separator, the only form
`src/algolia.js` uses (`split(':')`, `split(',')`): the segments between
occurrences of the separator, in order; never empty. -/
def splitOnCharAux (sep : Char) : List Char → List Char → List String
  | [], acc => [String.mk acc.reverse]
  | c :: cs, acc =>
    if c == sep then String.mk acc.reverse :: splitOnCharAux sep cs []
    else splitOnCharAux sep cs (c :: acc)

/-- JS `s.split(sep)` for a one-character separator. -/
def jsSplit (s : String) (sep : Char) : List String :=
  splitOnCharAux sep s.data []

/-- The digits of a decimal numeral accumulated into a `Nat`; `none` when a
non-digit appears. -/
def digitsToNat : List Char → Nat → Option Nat
  | [], acc => some acc
  | c :: cs, acc =>
    if c.isDigit then digitsToNat cs (acc * 10 + (c.toNat - 48)) else none

/-- JS `ToIntegerOrInfinity(ToNumber(arg))` for the string arguments the
filter DSL passes to `substr`: a decimal integer string is its value, and
anything else — `""` is 0 and a `NaN` start or length is treated as 0 by
`String.prototype.substr` — is 0. -/
def toNumArg (s : String) : Int :=
  match s.data with
  | '-' :: rest =>
    match digitsToNat rest 0 with
    | some n => -(n : Int)
    | none => 0
  | l =>
    match digitsToNat l 0 with
    | some n => (n : Int)
    | none => 0

/-- `String.prototype.substr(start, length)`: a negative `start` counts from
the end (clamped at 0), and the result is the next `max length 0` characters.
The second argument is a length, not an end index. -/
def jsSubstr (s : String) (start length : Int) : String :=
  let len : Int := s.length
  let intStart := if start < 0 then max (len + start) 0 else min start len
  String.mk ((s.toList.drop intStart.toNat).take (max length 0).toNat)

/-- `String.prototype.substr(start)` with the length argument absent
(`undefined`): from `start` to the end of the string. -/
def jsSubstrFrom (s : String) (start : Int) : String :=
  let len : Int := s.length
  let intStart := if start < 0 then max (len + start) 0 else min start len
  String.mk (s.toList.drop intStart.toNat)

/-- The `strip` entry of `FILTER_FUNCTIONS`: `striptags` applied to the
threaded value.  Defined on strings; on any other value the embedding reports
a thrown error (`none`). -/
def stripFilter (v : JValue) (_args : List String) : Option JValue :=
  match v with
  | JValue.str s => some (JValue.str (striptags s))
  | _ => none

/-- The `truncate` entry of `FILTER_FUNCTIONS`:
`function(post, start, end) { return post.substr(start, end) }`, the string
arguments coerced as JS does; a missing argument is `undefined`. -/
def truncateFilter (v : JValue) (args : List String) : Option JValue :=
  match v with
  | JValue.str s =>
    match args with
    | [] => some (JValue.str s)
    | [a] => some (JValue.str (jsSubstrFrom s (toNumArg a)))
    | a :: b :: _ => some (JValue.str (jsSubstr s (toNumArg a) (toNumArg b)))
  | _ => none

/-- The `FILTER_FUNCTIONS` registry of `src/algolia.js`: name-indexed lookup;
an unregistered name yields `none` (the JS call on `undefined` throws). -/
def FILTER_FUNCTIONS (name : String) : Option (JValue → List String → Option JValue) :=
  if name = "strip" then some stripFilter
  else if name = "truncate" then some truncateFilter
  else none

/-- The warning text of `src/algolia.js` line 85:
`"${initialContent.title}" post has no "${fieldName}" field.` -/
def warnMessage (title fieldName : String) : String :=
  "\"" ++ title ++ "\" post has no \"" ++ fieldName ++ "\" field."

/-- `initialContent.title` as interpolated into the warning template: the
title string when the record carries a string title, JS prints `undefined`
for an absent one. -/
def titleString (c : RawContent) : String :=
  match c.get "title" with
  | JValue.str t => t
  | _ => "undefined"

/-- One step of the `fieldFilters.forEach` loop: split the filter spec on
`,`, record the capitalized filter name, look the filter up in
`FILTER_FUNCTIONS` (a miss throws), and apply it to the threaded value
followed by the remaining tokens. -/
def applyOneFilter (fieldValue : JValue) (names : List String) (filterSpec : String) :
    Option (JValue × List String) :=
  match jsSplit filterSpec ',' with
  | [] => none
  | filterName :: filterArgs =>
    match FILTER_FUNCTIONS filterName with
    | none => none
    | some f =>
      match f fieldValue filterArgs with
      | none => none
      | some v => some (v, names ++ [upperFirst filterName])

/-- The whole `fieldFilters.forEach` loop: thread the value through the
filters strictly left to right, accumulating capitalized filter names. -/
def runFilterChain (fieldValue : JValue) (names : List String) :
    List String → Option (JValue × List String)
  | [] => some (fieldValue, names)
  | f :: fs =>
    match applyOneFilter fieldValue names f with
    | none => none
    | some (v, names') => runFilterChain v names' fs

/-- One iteration of the `fieldsWithFilters.forEach` loop of
`prepareContents`: split the spec on `:`; when the record lacks the field,
warn and leave the document untouched; otherwise run the filter chain and
store the result under the synthesized key. -/
def applyFilterSpec (initialContent : RawContent) (doc : Doc) (fieldSpec : String) :
    Option (Doc × List String) :=
  match jsSplit fieldSpec ':' with
  | [] => none
  | fieldName :: fieldFilters =>
    if initialContent.hasOwnProperty fieldName then
      match runFilterChain (initialContent.get fieldName) [] fieldFilters with
      | none => none
      | some (v, names) => some (setKey doc (fieldName ++ String.join names) v, [])
    else
      some (doc, [warnMessage (titleString initialContent) fieldName])

/-- The `fieldsWithFilters.forEach` loop over all specs, left to right,
collecting the warnings emitted along the way. -/
def applyFilterSpecs (initialContent : RawContent) (doc : Doc) :
    List String → Option (Doc × List String)
  | [] => some (doc, [])
  | spec :: rest =>
    match applyFilterSpec initialContent doc spec with
    | none => none
    | some (doc', w) =>
      match applyFilterSpecs initialContent doc' rest with
      | none => none
      | some (doc'', ws) => some (doc'', w ++ ws)

/-- The `tagsAndCategoriesFields.forEach` loop: for each selected taxonomy
field, set the document's value to the array of term names pushed in order
from `initialContent[field].data`.  Reading `.data` of a record value that is
not a taxonomy container — in particular of `undefined`, when the record does
not carry the field — throws, embedded as `none`. -/
def extractTaxonomies (initialContent : RawContent) (doc : Doc) :
    List String → Option Doc
  | [] => some doc
  | field :: rest =>
    match initialContent.get field with
    | JValue.taxData terms =>
      extractTaxonomies initialContent
        (setKey doc field (JValue.arr (terms.map (fun t => JValue.str t.name)))) rest
    | _ => none

/-- The body of the `contents.map` callback of `prepareContents`: pick the
plain fields, set `objectID` from `_id`, extract taxonomies, run the filter
specs.  Returns the document plus the warnings it emitted. -/
def prepareContent (fields fieldsWithFilters tagsAndCategoriesFields : List String)
    (initialContent : RawContent) : Option (Doc × List String) :=
  match extractTaxonomies initialContent
      (setKey (pick initialContent fields) "objectID" (initialContent.get "_id"))
      tagsAndCategoriesFields with
  | none => none
  | some doc => applyFilterSpecs initialContent doc fieldsWithFilters

/-- The `contents.map` over all records, threading the per-record results and
warnings; a throw in any record aborts the whole call. -/
def prepareContentsGo (fields fieldsWithFilters tagFields : List String) :
    List RawContent → Option (List Doc × List String)
  | [] => some ([], [])
  | c :: cs =>
    match prepareContent fields fieldsWithFilters tagFields c with
    | none => none
    | some (doc, ws) =>
      match prepareContentsGo fields fieldsWithFilters tagFields cs with
      | none => none
      | some (docs, wss) => some (doc :: docs, ws ++ wss)

/-- `prepareContents(contents, fields, fieldsWithFilters)` of
`src/algolia.js`: compute the selected taxonomy fields, then map every record
to its index document.  `none` embeds a thrown `TypeError`. -/
def prepareContents (contents : List RawContent) (fields fieldsWithFilters : List String) :
    Option (List Doc × List String) :=
  prepareContentsGo fields fieldsWithFilters
    ((["tags", "categories"]).filter (fun field => fields.contains field)) contents

/-- The `/:/.test(field)` of `src/algolia.js`: whether the spec contains the
filter delimiter. -/
def hasColon (field : String) : Bool :=
  field.data.any (fun ch => ch == ':')

/-- `getBasicFields(fields)`: the specs with no `:` delimiter, in order. -/
def getBasicFields (fields : List String) : List String :=
  fields.filter (fun field => !(hasColon field))

/-- `getFieldsWithFilters(fields)`: the specs containing `:`, in order. -/
def getFieldsWithFilters (fields : List String) : List String :=
  fields.filter (fun field => hasColon field)

/-- The command-line arguments of `algoliaCommand`; `n` is the flag that
suppresses the clear step (`if (args && !args.n)`). -/
structure Args where
  n : Bool

/-- The requests `algoliaCommand` issues to the remote Algolia index. -/
inductive IndexOp where
  | clearObjects : IndexOp
  | saveObjects : List Doc → IndexOp

/-- How one run of `algoliaCommand` ends.  `noPosts` is the early
`return callback()` of the zero-post short-circuit (a success, no error
argument); `indexed n` is the normal completion logging `n` posts indexed;
`clearError` / `uploadError` are the `return callback(error)` paths; `crashed`
embeds an exception thrown outside the two try/catch blocks. -/
inductive CommandResult where
  | noPosts : CommandResult
  | indexed : Nat → CommandResult
  | clearError : CommandResult
  | uploadError : CommandResult
  | crashed : CommandResult

/-- The `hexo.config.algolia.fields` configuration: the two field-spec
lists. -/
structure FieldsConfig where
  post_fields : List String
  page_fields : List String

/-- The remote index's behavior during one run: whether `clearObjects`
succeeds, and which `saveObjects` chunks succeed. -/
structure RunEnv where
  clearOk : Bool
  saveOk : List Doc → Bool

/-- `algoliaConfig.chunkSize || 5000`: the configured chunk size, with the JS
falsy values (absent, 0) replaced by the default 5000. -/
def algoliaChunkSizeOf : Option Nat → Nat
  | some n => if n == 0 then 5000 else n
  | none => 5000

/-- `algoliaCommand` of `src/algolia.js`, its external collaborators
abstracted: `posts` are the published posts already sorted by date ascending
and `pages` the pages likewise (the store and `hexo.call('generate')` are the
host pipeline's); the Algolia client is abstracted by `env`.  Returns the
sequence of requests issued to the remote index together with the run's
outcome.  `Promise.all` issues every chunk request, so all `saveObjects` ops
appear in the trace even when one of them fails. -/
def algoliaCommand (fieldsConfig : FieldsConfig) (chunkSizeConfig : Option Nat)
    (posts pages : List RawContent) (args : Option Args) (env : RunEnv) :
    List IndexOp × CommandResult :=
  let postFields := getBasicFields fieldsConfig.post_fields
  let postFieldsWithFilters := getFieldsWithFilters fieldsConfig.post_fields
  let pageFields := getBasicFields fieldsConfig.page_fields
  let pageFieldsWithFilters := getFieldsWithFilters fieldsConfig.page_fields
  let algoliaChunkSize := algoliaChunkSizeOf chunkSizeConfig
  if posts.length == 0 then ([], CommandResult.noPosts)
  else
    match prepareContents posts postFields postFieldsWithFilters with
    | none => ([], CommandResult.crashed)
    | some (postDocs, _) =>
      match prepareContents pages pageFields pageFieldsWithFilters with
      | none => ([], CommandResult.crashed)
      | some (pageDocs, _) =>
        let contents := postDocs ++ pageDocs
        let chunkedContents := splitIntoChunks contents algoliaChunkSize
        let doClear := match args with | some a => !a.n | none => false
        if doClear && !env.clearOk then
          ([IndexOp.clearObjects], CommandResult.clearError)
        else
          let clearOps := if doClear then [IndexOp.clearObjects] else []
          let ops := clearOps ++ chunkedContents.map IndexOp.saveObjects
          if chunkedContents.all env.saveOk then
            (ops, CommandResult.indexed postDocs.length)
          else
            (ops, CommandResult.uploadError)

/-! ## Lemmas about the Batcher -/

theorem chunkLoop_nil (fuel k : Nat) : chunkLoop fuel ([] : List α) k = [] := by
  cases fuel <;> rfl

theorem chunkLoop_flatten (k : Nat) (hk : 0 < k) :
    ∀ (fuel : Nat) (l : List α), l.length ≤ fuel → (chunkLoop fuel l k).flatten = l := by
  intro fuel
  induction fuel with
  | zero =>
    intro l hl
    have hnil : l = [] := List.eq_nil_of_length_eq_zero (Nat.le_zero.mp hl)
    subst hnil
    rfl
  | succ fuel ih =>
    intro l hl
    match l with
    | [] => rfl
    | a :: as =>
      have hdrop : ((a :: as).drop k).length ≤ fuel := by
        rw [List.length_drop, List.length_cons]
        rw [List.length_cons] at hl
        omega
      calc (chunkLoop (fuel + 1) (a :: as) k).flatten
          = ((a :: as).take k :: chunkLoop fuel ((a :: as).drop k) k).flatten := rfl
        _ = (a :: as).take k ++ (chunkLoop fuel ((a :: as).drop k) k).flatten :=
            List.flatten_cons ..
        _ = (a :: as).take k ++ (a :: as).drop k := by rw [ih _ hdrop]
        _ = a :: as := List.take_append_drop k (a :: as)

theorem chunkLoop_length_le (k : Nat) :
    ∀ (fuel : Nat) (l c : List α), c ∈ chunkLoop fuel l k → c.length ≤ k := by
  intro fuel
  induction fuel with
  | zero =>
    intro l c hc
    match l with
    | [] => simp [chunkLoop] at hc
    | _ :: _ => simp [chunkLoop] at hc
  | succ fuel ih =>
    intro l c hc
    match l with
    | [] => simp [chunkLoop] at hc
    | a :: as =>
      have hcases : c = (a :: as).take k ∨ c ∈ chunkLoop fuel ((a :: as).drop k) k := by
        simpa [chunkLoop] using hc
      rcases hcases with h | h
      · subst h
        simp [List.length_take]
      · exact ih _ _ h

theorem chunkLoop_getD (k : Nat) (hk : 0 < k) :
    ∀ (fuel : Nat) (l : List α) (i : Nat), l.length ≤ fuel →
      i + 1 < (chunkLoop fuel l k).length → ((chunkLoop fuel l k).getD i []).length = k := by
  intro fuel
  induction fuel with
  | zero =>
    intro l i hl hi
    have hnil : l = [] := List.eq_nil_of_length_eq_zero (Nat.le_zero.mp hl)
    subst hnil
    simp [chunkLoop_nil] at hi
  | succ fuel ih =>
    intro l i hl hi
    match l with
    | [] => simp [chunkLoop_nil] at hi
    | a :: as =>
      have hstep : chunkLoop (fuel + 1) (a :: as) k
          = (a :: as).take k :: chunkLoop fuel ((a :: as).drop k) k := rfl
      rw [hstep] at hi ⊢
      have hdrop : ((a :: as).drop k).length ≤ fuel := by
        rw [List.length_drop, List.length_cons]
        rw [List.length_cons] at hl
        omega
      match i with
      | 0 =>
        have hrest : chunkLoop fuel ((a :: as).drop k) k ≠ [] := by
          intro hnil
          rw [hnil] at hi
          simp at hi
        have hlen : k ≤ (a :: as).length := by
          by_contra hlt
          have hdropnil : (a :: as).drop k = [] := List.drop_eq_nil_of_le (by omega)
          rw [hdropnil, chunkLoop_nil] at hrest
          exact hrest rfl
        rw [List.getD_cons_zero, List.length_take]
        omega
      | i + 1 =>
        rw [List.getD_cons_succ]
        apply ih _ i hdrop
        rw [List.length_cons] at hi
        omega

/-- C1: for every document sequence and every chunk size `k > 0`,
`splitIntoChunks` returns chunks whose in-order concatenation reproduces the
input exactly, every chunk has length at most `k`, every chunk except
possibly the last has length exactly `k`, and an empty input yields an empty
chunk sequence. -/
theorem splitIntoChunks_correct (l : List α) (k : Nat) (hk : 0 < k) :
    (splitIntoChunks l k).flatten = l ∧
    (∀ c ∈ splitIntoChunks l k, c.length ≤ k) ∧
    (∀ i, i + 1 < (splitIntoChunks l k).length →
      ((splitIntoChunks l k).getD i []).length = k) ∧
    splitIntoChunks ([] : List α) k = [] :=
  ⟨chunkLoop_flatten k hk l.length l (Nat.le_refl _),
   fun c hc => chunkLoop_length_le k _ _ c hc,
   fun i hi => chunkLoop_getD k hk _ l i (Nat.le_refl _) hi,
   rfl⟩

/-- Witness for C1 at a concrete input. -/
theorem splitIntoChunks_correct_witness :
    (0 : Nat) < 2 ∧
    ((splitIntoChunks [1, 2, 3, 4, 5] 2).flatten = [1, 2, 3, 4, 5] ∧
     (∀ c ∈ splitIntoChunks [1, 2, 3, 4, 5] 2, c.length ≤ 2) ∧
     (∀ i, i + 1 < (splitIntoChunks [1, 2, 3, 4, 5] 2).length →
       ((splitIntoChunks [1, 2, 3, 4, 5] 2).getD i []).length = 2) ∧
     splitIntoChunks ([] : List Nat) 2 = []) :=
  ⟨by decide, splitIntoChunks_correct [1, 2, 3, 4, 5] 2 (by decide)⟩

/-! ## Lemmas about the heap-level Batcher (frame property) -/

theorem Store.read_set_ne (σ : Store α) (r i : Nat) (v : List α) (h : i ≠ r) :
    Store.read (σ.set r v) i = Store.read σ i := by
  simp [Store.read, List.getD_eq_getElem?_getD, List.getElem?_set_ne (Ne.symm h)]

theorem Store.read_set_eq (σ : Store α) (r : Nat) (v : List α) (h : r < σ.length) :
    Store.read (σ.set r v) r = v := by
  simp [Store.read, List.getD_eq_getElem?_getD, List.getElem?_set_eq_of_lt v h]

theorem heapChunkLoop_frame :
    ∀ (fuel : Nat) (σ : Store α) (r k : Nat) (chunks : List (List α)) (i : Nat), i ≠ r →
      Store.read (heapChunkLoop fuel σ r k chunks).2 i = Store.read σ i := by
  intro fuel
  induction fuel with
  | zero =>
    intro σ r k chunks i hi
    unfold heapChunkLoop
    split <;> first | rfl | omega
  | succ fuel ih =>
    intro σ r k chunks i hi
    unfold heapChunkLoop
    split
    · rfl
    · omega
    · rename_i fuel' a as hfe hread
      obtain rfl : fuel' = fuel := by omega
      exact (ih _ r k _ i hi).trans (Store.read_set_ne σ r i _ hi)

theorem heapChunkLoop_fst :
    ∀ (fuel : Nat) (σ : Store α) (r k : Nat) (chunks : List (List α)), r < σ.length →
      (heapChunkLoop fuel σ r k chunks).1 = chunks ++ chunkLoop fuel (Store.read σ r) k := by
  intro fuel
  induction fuel with
  | zero =>
    intro σ r k chunks hr
    unfold heapChunkLoop
    split
    · rename_i hread
      rw [hread, chunkLoop_nil]
      simp
    · rename_i a as hread
      rw [hread]
      simp [chunkLoop]
    · omega
  | succ fuel ih =>
    intro σ r k chunks hr
    unfold heapChunkLoop
    split
    · rename_i hread
      rw [hread, chunkLoop_nil]
      simp
    · omega
    · rename_i fuel' a as hfe hread
      obtain rfl : fuel' = fuel := by omega
      rw [ih _ r k _ (by simpa using hr), Store.read_set_eq σ r _ hr, hread]
      simp [chunkLoop]

/-- C10: `splitIntoChunks` copies its input array before splicing, so at heap
level the caller's array — and every other array in the store — is identical
before and after chunking, and the chunks computed are those of the pure
`splitIntoChunks`. -/
theorem splitIntoChunksHeap_frame (σ : Store α) (r k : Nat) (hr : r < σ.length) :
    Store.read (splitIntoChunksHeap σ r k).2 r = Store.read σ r ∧
    (∀ i, i < σ.length → Store.read (splitIntoChunksHeap σ r k).2 i = Store.read σ i) ∧
    (splitIntoChunksHeap σ r k).1 = splitIntoChunks (Store.read σ r) k := by
  have frame : ∀ i, i < σ.length →
      Store.read (splitIntoChunksHeap σ r k).2 i = Store.read σ i := by
    intro i hi
    unfold splitIntoChunksHeap
    rw [heapChunkLoop_frame _ _ _ _ _ i (by omega)]
    simp [Store.read, List.getD_eq_getElem?_getD, List.getElem?_append_left hi]
  refine ⟨frame r hr, frame, ?_⟩
  unfold splitIntoChunksHeap splitIntoChunks
  rw [heapChunkLoop_fst _ _ _ _ _ (by simp)]
  have hread : Store.read (σ ++ [Store.read σ r]) σ.length = Store.read σ r := by
    simp [Store.read, List.getD_eq_getElem?_getD,
      List.getElem?_append_right (Nat.le_refl _)]
  rw [hread]
  simp

/-- Witness for C10 at a concrete store. -/
theorem splitIntoChunksHeap_frame_witness :
    (0 : Nat) < 2 ∧
    (Store.read (splitIntoChunksHeap [[1, 2, 3], [9]] 0 2).2 0 =
       Store.read ([[1, 2, 3], [9]] : Store Nat) 0 ∧
     (∀ i, i < ([[1, 2, 3], [9]] : Store Nat).length →
       Store.read (splitIntoChunksHeap [[1, 2, 3], [9]] 0 2).2 i =
         Store.read ([[1, 2, 3], [9]] : Store Nat) i) ∧
     (splitIntoChunksHeap [[1, 2, 3], [9]] 0 2).1 =
       splitIntoChunks (Store.read ([[1, 2, 3], [9]] : Store Nat) 0) 2) :=
  ⟨by decide, splitIntoChunksHeap_frame [[1, 2, 3], [9]] 0 2 (by decide)⟩

/-! ## Lemmas about documents (JS object assignment and lookup) -/

theorem find?_map_setKey (d : Doc) (k : String) (v : JValue) :
    List.find? (fun q => q.1 == k)
      (d.map (fun p => if p.1 == k then (k, v) else p)) =
    if d.any (fun p => p.1 == k) then some (k, v) else none := by
  induction d with
  | nil => rfl
  | cons p d ih =>
    by_cases hp : p.1 = k
    · have hp' : (p.1 == k) = true := beq_iff_eq.mpr hp
      rw [List.map_cons, if_pos hp', List.find?_cons_of_pos _ (by simp)]
      simp [List.any_cons, hp']
    · have hp' : (p.1 == k) = false := beq_false_of_ne hp
      rw [List.map_cons, if_neg (by simp [hp']), List.find?_cons_of_neg _ (by simp [hp']), ih]
      rw [show ((p :: d).any fun p => p.1 == k) = (d.any fun p => p.1 == k) by
        rw [List.any_cons, hp', Bool.false_or]]

theorem find?_map_setKey_ne (d : Doc) (k k' : String) (v : JValue) (hne : k' ≠ k) :
    List.find? (fun q => q.1 == k')
      (d.map (fun p => if p.1 == k then (k, v) else p)) =
    List.find? (fun q => q.1 == k') d := by
  induction d with
  | nil => rfl
  | cons p d ih =>
    by_cases hp : p.1 = k
    · have hp' : (p.1 == k) = true := beq_iff_eq.mpr hp
      have hk : (k == k') = false := beq_false_of_ne (Ne.symm hne)
      have hpk' : (p.1 == k') = false := by rw [hp]; exact hk
      rw [List.map_cons, if_pos hp', List.find?_cons_of_neg _ (by simp [hk]),
        List.find?_cons_of_neg _ (by simp [hpk']), ih]
    · have hp' : (p.1 == k) = false := beq_false_of_ne hp
      rw [List.map_cons, if_neg (by simp [hp'])]
      by_cases hq : p.1 = k'
      · have hq' : (p.1 == k') = true := beq_iff_eq.mpr hq
        rw [List.find?_cons_of_pos _ (by simp [hq']), List.find?_cons_of_pos _ (by simp [hq'])]
      · have hq' : (p.1 == k') = false := beq_false_of_ne hq
        rw [List.find?_cons_of_neg _ (by simp [hq']),
          List.find?_cons_of_neg _ (by simp [hq']), ih]

theorem lookupDoc_setKey_self (d : Doc) (k : String) (v : JValue) :
    lookupDoc (setKey d k v) k = some v := by
  unfold lookupDoc setKey
  by_cases hany : d.any (fun p => p.1 == k) = true
  · rw [if_pos hany, find?_map_setKey, if_pos hany]
  · have hany' : d.any (fun p => p.1 == k) = false := by
      cases h : d.any (fun p => p.1 == k) with
      | false => rfl
      | true => exact absurd h hany
    have hnone : List.find? (fun q => q.1 == k) d = none := by
      rw [List.find?_eq_none]
      exact List.any_eq_false.mp hany'
    have h2 : List.find? (fun q => q.1 == k) [(k, v)] = some (k, v) :=
      List.find?_cons_of_pos _ (by simp)
    rw [if_neg (by simp [hany']), List.find?_append, hnone, h2]
    rfl

theorem lookupDoc_setKey_ne (d : Doc) (k k' : String) (v : JValue) (hne : k' ≠ k) :
    lookupDoc (setKey d k v) k' = lookupDoc d k' := by
  unfold lookupDoc setKey
  by_cases hany : d.any (fun p => p.1 == k) = true
  · rw [if_pos hany, find?_map_setKey_ne d k k' v hne]
  · have hany' : d.any (fun p => p.1 == k) = false := by
      cases h : d.any (fun p => p.1 == k) with
      | false => rfl
      | true => exact absurd h hany
    have h2 : List.find? (fun q => q.1 == k') [(k, v)] = none := by
      rw [List.find?_eq_none]
      intro x hx
      simp only [List.mem_singleton] at hx
      subst hx
      simp [beq_false_of_ne (Ne.symm hne)]
    rw [if_neg (by simp [hany']), List.find?_append, h2]
    cases List.find? (fun q => q.1 == k') d <;> rfl

/-! ## Lemmas about taxonomy extraction -/

theorem extractTaxonomies_cons_taxData (c : RawContent) (doc : Doc) (f : String)
    (ts : List TaxTerm) (rest : List String) (hget : c.get f = JValue.taxData ts) :
    extractTaxonomies c doc (f :: rest) =
      extractTaxonomies c
        (setKey doc f (JValue.arr (ts.map (fun t => JValue.str t.name)))) rest := by
  conv_lhs => unfold extractTaxonomies
  rw [hget]

theorem extractTaxonomies_cons_none (c : RawContent) (doc : Doc) (f : String)
    (rest : List String) (h : ∀ ts, c.get f ≠ JValue.taxData ts) :
    extractTaxonomies c doc (f :: rest) = none := by
  unfold extractTaxonomies
  cases hg : c.get f with
  | undef => rfl
  | str s => rfl
  | arr l => rfl
  | taxData ts => exact absurd hg (h ts)

theorem extractTaxonomies_lookup (c : RawContent) (key : String) :
    ∀ (tf : List String) (doc doc' : Doc), (∀ f ∈ tf, f ≠ key) →
      extractTaxonomies c doc tf = some doc' →
      lookupDoc doc' key = lookupDoc doc key := by
  intro tf
  induction tf with
  | nil =>
    intro doc doc' _ h
    unfold extractTaxonomies at h
    cases h
    rfl
  | cons f tf ih =>
    intro doc doc' hne h
    cases hg : c.get f with
    | taxData ts =>
      rw [extractTaxonomies_cons_taxData c doc f ts tf hg] at h
      rw [ih _ _ (fun g hg' => hne g (List.mem_cons_of_mem f hg')) h]
      exact lookupDoc_setKey_ne doc f key _ (hne f (List.mem_cons_self f tf)).symm
    | undef =>
      rw [extractTaxonomies_cons_none c doc f tf (by intro u hu; rw [hg] at hu; cases hu)] at h
      cases h
    | str s =>
      rw [extractTaxonomies_cons_none c doc f tf (by intro u hu; rw [hg] at hu; cases hu)] at h
      cases h
    | arr l =>
      rw [extractTaxonomies_cons_none c doc f tf (by intro u hu; rw [hg] at hu; cases hu)] at h
      cases h

theorem extractTaxonomies_mem (c : RawContent) :
    ∀ (tf : List String) (doc doc' : Doc) (field : String) (ts : List TaxTerm),
      tf.Nodup → field ∈ tf → c.get field = JValue.taxData ts →
      extractTaxonomies c doc tf = some doc' →
      lookupDoc doc' field = some (JValue.arr (ts.map (fun t => JValue.str t.name))) := by
  intro tf
  induction tf with
  | nil =>
    intro doc doc' field ts _ hmem
    exact absurd hmem (List.not_mem_nil field)
  | cons f tf ih =>
    intro doc doc' field ts hnd hmem hget h
    rcases List.mem_cons.mp hmem with rfl | hmem'
    · rw [extractTaxonomies_cons_taxData c doc field ts tf hget] at h
      have hnotal : field ∉ tf := (List.nodup_cons.mp hnd).1
      rw [extractTaxonomies_lookup c field tf _ doc'
        (fun g hg hgf => hnotal (hgf ▸ hg)) h]
      exact lookupDoc_setKey_self doc field _
    · cases hg : c.get f with
      | taxData ts' =>
        rw [extractTaxonomies_cons_taxData c doc f ts' tf hg] at h
        exact ih _ doc' field ts (List.nodup_cons.mp hnd).2 hmem' hget h
      | undef =>
        rw [extractTaxonomies_cons_none c doc f tf (by intro u hu; rw [hg] at hu; cases hu)] at h
        cases h
      | str s =>
        rw [extractTaxonomies_cons_none c doc f tf (by intro u hu; rw [hg] at hu; cases hu)] at h
        cases h
      | arr l =>
        rw [extractTaxonomies_cons_none c doc f tf (by intro u hu; rw [hg] at hu; cases hu)] at h
        cases h

theorem extractTaxonomies_none_of_mem (c : RawContent) :
    ∀ (tf : List String) (doc : Doc) (field : String),
      field ∈ tf → (∀ ts, c.get field ≠ JValue.taxData ts) →
      extractTaxonomies c doc tf = none := by
  intro tf
  induction tf with
  | nil =>
    intro doc field hmem
    exact absurd hmem (List.not_mem_nil field)
  | cons f tf ih =>
    intro doc field hmem hno
    rcases List.mem_cons.mp hmem with rfl | hmem'
    · exact extractTaxonomies_cons_none c doc field tf hno
    · cases hg : c.get f with
      | taxData ts' =>
        rw [extractTaxonomies_cons_taxData c doc f ts' tf hg]
        exact ih _ field hmem' hno
      | undef => exact extractTaxonomies_cons_none c doc f tf (by intro u hu; rw [hg] at hu; cases hu)
      | str s => exact extractTaxonomies_cons_none c doc f tf (by intro u hu; rw [hg] at hu; cases hu)
      | arr l => exact extractTaxonomies_cons_none c doc f tf (by intro u hu; rw [hg] at hu; cases hu)

/-! ## Lemmas about the record-to-document map -/

theorem prepareContentsGo_cons_inv (fields fwf tf : List String) (c : RawContent)
    (cs : List RawContent) (docs : List Doc) (ws : List String)
    (h : prepareContentsGo fields fwf tf (c :: cs) = some (docs, ws)) :
    ∃ d w ds wss, prepareContent fields fwf tf c = some (d, w) ∧
      prepareContentsGo fields fwf tf cs = some (ds, wss) ∧
      docs = d :: ds ∧ ws = w ++ wss := by
  cases h1 : prepareContent fields fwf tf c with
  | none =>
    simp only [prepareContentsGo, h1] at h
    exact Option.noConfusion h
  | some p =>
    obtain ⟨d, w⟩ := p
    cases h2 : prepareContentsGo fields fwf tf cs with
    | none =>
      simp only [prepareContentsGo, h1, h2] at h
      exact Option.noConfusion h
    | some q =>
      obtain ⟨ds, wss⟩ := q
      simp only [prepareContentsGo, h1, h2, Option.some.injEq, Prod.mk.injEq] at h
      exact ⟨d, w, ds, wss, rfl, rfl, h.1.symm, h.2.symm⟩

theorem prepareContentsGo_length (fields fwf tf : List String) :
    ∀ (contents : List RawContent) (docs : List Doc) (ws : List String),
      prepareContentsGo fields fwf tf contents = some (docs, ws) →
      docs.length = contents.length := by
  intro contents
  induction contents with
  | nil =>
    intro docs ws h
    unfold prepareContentsGo at h
    cases h
    rfl
  | cons c cs ih =>
    intro docs ws h
    obtain ⟨d, w, ds, wss, h1, h2, rfl, rfl⟩ := prepareContentsGo_cons_inv _ _ _ _ _ _ _ h
    simp [ih ds wss h2]

theorem prepareContent_none (fields fwf tf : List String) (c : RawContent) (field : String)
    (hmem : field ∈ tf) (hno : ∀ ts, c.get field ≠ JValue.taxData ts) :
    prepareContent fields fwf tf c = none := by
  unfold prepareContent
  rw [extractTaxonomies_none_of_mem c tf _ field hmem hno]

theorem prepareContentsGo_none_of_mem (fields fwf tf : List String) :
    ∀ (contents : List RawContent) (c : RawContent), c ∈ contents →
      prepareContent fields fwf tf c = none →
      prepareContentsGo fields fwf tf contents = none := by
  intro contents
  induction contents with
  | nil => intro c hmem; exact absurd hmem (List.not_mem_nil c)
  | cons a cs ih =>
    intro c hmem hnone
    rcases List.mem_cons.mp hmem with rfl | hmem'
    · simp only [prepareContentsGo, hnone]
    · cases h1 : prepareContent fields fwf tf a with
      | none => simp only [prepareContentsGo, h1]
      | some p =>
        obtain ⟨d, w⟩ := p
        simp only [prepareContentsGo, h1, ih c hmem' hnone]

/-- C4 counterexample: a record that does not carry the selected taxonomy
field `tags` makes `prepareContents` throw (`initialContent["tags"].data` on
`undefined`), instead of producing an equal-length document sequence. -/
theorem prepareContents_missing_taxonomy_cex :
    prepareContents
      [RawContent.mk [("_id", JValue.str "1"), ("title", JValue.str "t")]]
      ["tags"] [] = none := rfl

/-- C4 (amended): the Content Transformer produces an equal-length sequence
of documents in input order whenever it succeeds, but taxonomy replacement is
applied to every selected taxonomy field whether or not the record carries
it: a record lacking a selected taxonomy field (or carrying a non-taxonomy
value there) makes the whole transformation fail. -/
theorem prepareContents_length_claim (contents : List RawContent)
    (fields fieldsWithFilters : List String) :
    (∀ docs ws, prepareContents contents fields fieldsWithFilters = some (docs, ws) →
      docs.length = contents.length) ∧
    (∀ c ∈ contents, ∀ field, (field = "tags" ∨ field = "categories") →
      fields.contains field = true → (∀ ts, c.get field ≠ JValue.taxData ts) →
      prepareContents contents fields fieldsWithFilters = none) := by
  constructor
  · intro docs ws h
    exact prepareContentsGo_length _ _ _ contents docs ws h
  · intro c hc field hfield hsel hno
    have hmemtf : field ∈ (["tags", "categories"]).filter (fun f => fields.contains f) := by
      rw [List.mem_filter]
      exact ⟨by rcases hfield with rfl | rfl <;> simp, hsel⟩
    exact prepareContentsGo_none_of_mem _ _ _ contents c hc
      (prepareContent_none _ _ _ c field hmemtf hno)

/-- Witness for C4 (amended) at a concrete input. -/
theorem prepareContents_length_claim_witness :
    ([[("objectID", JValue.str "1")]] : List Doc).length =
      ([RawContent.mk [("_id", JValue.str "1")]] : List RawContent).length :=
  (prepareContents_length_claim [RawContent.mk [("_id", JValue.str "1")]] ["title"] []).1
    [[("objectID", JValue.str "1")]] [] rfl

/-- C5: for a filter-bearing field spec naming a field the record lacks, the
Content Transformer emits exactly one warning naming the record's title and
the missing field, leaves the document untouched (no key for that spec), and
goes on with the remaining specs — the condition is never fatal. -/
theorem missing_filter_field_claim (c : RawContent) (doc : Doc) (spec : String)
    (fieldName : String) (fieldFilters rest : List String)
    (hsplit : jsSplit spec ':' = fieldName :: fieldFilters)
    (habs : c.hasOwnProperty fieldName = false) :
    applyFilterSpec c doc spec = some (doc, [warnMessage (titleString c) fieldName]) ∧
    applyFilterSpecs c doc (spec :: rest) =
      (applyFilterSpecs c doc rest).map
        (fun p => (p.1, warnMessage (titleString c) fieldName :: p.2)) := by
  have h1 : applyFilterSpec c doc spec
      = some (doc, [warnMessage (titleString c) fieldName]) := by
    simp [applyFilterSpec, hsplit, habs]
  refine ⟨h1, ?_⟩
  cases h2 : applyFilterSpecs c doc rest with
  | none => simp [applyFilterSpecs, h1, h2]
  | some p =>
    obtain ⟨d2, w2⟩ := p
    simp [applyFilterSpecs, h1, h2]

/-- Witness for C5 at a concrete record and spec. -/
theorem missing_filter_field_claim_witness :
    (jsSplit "missing:strip" ':' = ["missing", "strip"] ∧
     RawContent.hasOwnProperty (RawContent.mk [("title", JValue.str "T")]) "missing" = false) ∧
    (applyFilterSpec (RawContent.mk [("title", JValue.str "T")]) [] "missing:strip" =
        some ([], [warnMessage (titleString (RawContent.mk [("title", JValue.str "T")])) "missing"]) ∧
     applyFilterSpecs (RawContent.mk [("title", JValue.str "T")]) [] ["missing:strip"] =
       (applyFilterSpecs (RawContent.mk [("title", JValue.str "T")]) [] []).map
         (fun p => (p.1, warnMessage (titleString (RawContent.mk [("title", JValue.str "T")])) "missing" :: p.2))) :=
  ⟨⟨rfl, rfl⟩,
   missing_filter_field_claim (RawContent.mk [("title", JValue.str "T")]) [] "missing:strip"
     "missing" ["strip"] [] rfl rfl⟩

/-! ## The registered filters and the shape of synthesized keys -/

theorem FILTER_FUNCTIONS_eq_some (n : String) (f : JValue → List String → Option JValue)
    (h : FILTER_FUNCTIONS n = some f) : n = "strip" ∨ n = "truncate" := by
  unfold FILTER_FUNCTIONS at h
  by_cases h1 : n = "strip"
  · exact Or.inl h1
  · by_cases h2 : n = "truncate"
    · exact Or.inr h2
    · rw [if_neg h1, if_neg h2] at h
      exact Option.noConfusion h

theorem applyOneFilter_some (v : JValue) (names : List String) (fs : String)
    (v' : JValue) (names' : List String)
    (h : applyOneFilter v names fs = some (v', names')) :
    names' = names ++ [upperFirst ((jsSplit fs ',').headD "")] ∧
    (upperFirst ((jsSplit fs ',').headD "") = "Strip" ∨
     upperFirst ((jsSplit fs ',').headD "") = "Truncate") := by
  cases hsp : jsSplit fs ',' with
  | nil =>
    simp only [applyOneFilter, hsp] at h
    exact Option.noConfusion h
  | cons fn args =>
    cases hff : FILTER_FUNCTIONS fn with
    | none =>
      simp only [applyOneFilter, hsp, hff] at h
      exact Option.noConfusion h
    | some f =>
      cases hap : f v args with
      | none =>
        simp only [applyOneFilter, hsp, hff, hap] at h
        exact Option.noConfusion h
      | some v2 =>
        simp only [applyOneFilter, hsp, hff, hap, Option.some.injEq, Prod.mk.injEq] at h
        obtain ⟨hv, hn⟩ := h
        refine ⟨hn.symm, ?_⟩
        rcases FILTER_FUNCTIONS_eq_some fn f hff with rfl | rfl
        · exact Or.inl rfl
        · exact Or.inr rfl

theorem runFilterChain_names :
    ∀ (fs : List String) (v : JValue) (names : List String) (v' : JValue)
      (names' : List String),
      runFilterChain v names fs = some (v', names') →
      names' = names ++ fs.map (fun f => upperFirst ((jsSplit f ',').headD "")) ∧
      (∀ n ∈ fs.map (fun f => upperFirst ((jsSplit f ',').headD "")),
        n = "Strip" ∨ n = "Truncate") := by
  intro fs
  induction fs with
  | nil =>
    intro v names v' names' h
    simp only [runFilterChain, Option.some.injEq, Prod.mk.injEq] at h
    obtain ⟨hv, hn⟩ := h
    subst hn
    exact ⟨by simp, fun n hn => absurd hn (List.not_mem_nil n)⟩
  | cons f fs ih =>
    intro v names v' names' h
    cases ha : applyOneFilter v names f with
    | none =>
      simp only [runFilterChain, ha] at h
      exact Option.noConfusion h
    | some p =>
      obtain ⟨v2, names2⟩ := p
      simp only [runFilterChain, ha] at h
      obtain ⟨h1, h2⟩ := applyOneFilter_some v names f v2 names2 ha
      obtain ⟨h3, h4⟩ := ih v2 names2 v' names' h
      constructor
      · rw [h3, h1, List.map_cons]
        simp
      · intro n hn
        rw [List.map_cons] at hn
        rcases List.mem_cons.mp hn with rfl | hn'
        · exact h2
        · exact h4 n hn'

theorem splitOnCharAux_ne_nil (sep : Char) :
    ∀ (cs acc : List Char), splitOnCharAux sep cs acc ≠ [] := by
  intro cs
  induction cs with
  | nil => intro acc h; exact List.noConfusion h
  | cons c cs ih =>
    intro acc h
    unfold splitOnCharAux at h
    by_cases hc : (c == sep) = true
    · rw [if_pos hc] at h
      exact List.noConfusion h
    · rw [if_neg hc] at h
      exact ih _ h

theorem splitOnCharAux_two_of_mem (sep : Char) :
    ∀ (cs acc : List Char), cs.any (fun c => c == sep) = true →
      2 ≤ (splitOnCharAux sep cs acc).length := by
  intro cs
  induction cs with
  | nil => intro acc h; simp at h
  | cons c cs ih =>
    intro acc h
    unfold splitOnCharAux
    by_cases hc : (c == sep) = true
    · rw [if_pos hc, List.length_cons]
      have := List.length_pos.mpr (splitOnCharAux_ne_nil sep cs [])
      omega
    · have hc' : (c == sep) = false := by
        cases hcs : (c == sep) with
        | false => rfl
        | true => exact absurd hcs hc
      rw [if_neg hc]
      apply ih
      rw [List.any_cons, hc', Bool.false_or] at h
      exact h

theorem hasColon_split (s : String) (h : hasColon s = true) :
    2 ≤ (jsSplit s ':').length :=
  splitOnCharAux_two_of_mem ':' s.data [] h

theorem foldl_string_append (l : List String) :
    ∀ (init : String), l.foldl (fun r s => r ++ s) init = init ++ String.join l := by
  induction l with
  | nil =>
    intro init
    simp [String.join]
  | cons a l ih =>
    intro init
    rw [List.foldl_cons, ih (init ++ a)]
    have hj : String.join (a :: l) = a ++ String.join l := by
      show List.foldl (fun r s => r ++ s) "" (a :: l) = a ++ String.join l
      rw [List.foldl_cons, ih ("" ++ a)]
      simp
    rw [hj, String.append_assoc]

theorem join_concat (l : List String) (s : String) :
    String.join (l ++ [s]) = String.join l ++ s := by
  show List.foldl (fun r s => r ++ s) "" (l ++ [s]) = String.join l ++ s
  rw [List.foldl_append, List.foldl_cons, List.foldl_nil]
  rfl

theorem ne_of_append_suffix (a suf target : String)
    (h : target.data.reverse.take suf.data.length ≠ suf.data.reverse) :
    a ++ suf ≠ target := by
  intro hEq
  apply h
  have hd : a.data ++ suf.data = target.data := by
    rw [← String.data_append, hEq]
  have hrev : suf.data.reverse ++ a.data.reverse = target.data.reverse := by
    rw [← List.reverse_append, hd]
  have htake := congrArg (List.take suf.data.reverse.length) hrev
  rw [List.take_left] at htake
  rw [List.length_reverse] at htake
  exact htake.symm

theorem filterKeys_ne (a : String) (names : List String) (hne : names ≠ [])
    (hmem : ∀ n ∈ names, n = "Strip" ∨ n = "Truncate") :
    a ++ String.join names ≠ "objectID" ∧
    a ++ String.join names ≠ "tags" ∧
    a ++ String.join names ≠ "categories" := by
  rcases List.eq_nil_or_concat' names with rfl | ⟨init, last, rfl⟩
  · exact absurd rfl hne
  · rw [join_concat, ← String.append_assoc]
    have hlast : last = "Strip" ∨ last = "Truncate" := hmem last (by simp)
    rcases hlast with rfl | rfl
    · exact ⟨ne_of_append_suffix _ _ _ (by decide),
             ne_of_append_suffix _ _ _ (by decide),
             ne_of_append_suffix _ _ _ (by decide)⟩
    · exact ⟨ne_of_append_suffix _ _ _ (by decide),
             ne_of_append_suffix _ _ _ (by decide),
             ne_of_append_suffix _ _ _ (by decide)⟩

/-! ## The filter loop never touches objectID or the taxonomy keys -/

theorem applyFilterSpec_lookup (c : RawContent) (doc : Doc) (spec : String)
    (doc' : Doc) (w : List String) (key : String)
    (hkey : key = "objectID" ∨ key = "tags" ∨ key = "categories")
    (hcolon : 2 ≤ (jsSplit spec ':').length)
    (h : applyFilterSpec c doc spec = some (doc', w)) :
    lookupDoc doc' key = lookupDoc doc key := by
  cases hsp : jsSplit spec ':' with
  | nil =>
    rw [hsp] at hcolon
    simp at hcolon
  | cons fieldName fieldFilters =>
    cases fieldFilters with
    | nil =>
      rw [hsp] at hcolon
      simp at hcolon
    | cons f1 rest =>
      by_cases hown : c.hasOwnProperty fieldName = true
      · cases hrun : runFilterChain (c.get fieldName) [] (f1 :: rest) with
        | none =>
          simp only [applyFilterSpec, hsp, hown, if_true, hrun] at h
          exact Option.noConfusion h
        | some p =>
          obtain ⟨v, names⟩ := p
          simp only [applyFilterSpec, hsp, hown, if_true, hrun, Option.some.injEq,
            Prod.mk.injEq] at h
          obtain ⟨hdoc, hw⟩ := h
          subst hdoc
          obtain ⟨hnames, hmem⟩ := runFilterChain_names (f1 :: rest) _ _ _ _ hrun
          have hne : names ≠ [] := by
            rw [hnames]
            simp
          have hkeys := filterKeys_ne fieldName names hne (by
            intro n hn
            rw [hnames] at hn
            simp only [List.nil_append] at hn
            exact hmem n hn)
          rcases hkey with rfl | rfl | rfl
          · exact lookupDoc_setKey_ne doc _ _ v (Ne.symm hkeys.1)
          · exact lookupDoc_setKey_ne doc _ _ v (Ne.symm hkeys.2.1)
          · exact lookupDoc_setKey_ne doc _ _ v (Ne.symm hkeys.2.2)
      · have hown' : c.hasOwnProperty fieldName = false := by
          cases hcs : c.hasOwnProperty fieldName with
          | false => rfl
          | true => exact absurd hcs hown
        simp only [applyFilterSpec, hsp, hown', Bool.false_eq_true, if_false,
          Option.some.injEq, Prod.mk.injEq] at h
        obtain ⟨hdoc, hw⟩ := h
        subst hdoc
        rfl

theorem applyFilterSpecs_lookup (c : RawContent) (key : String)
    (hkey : key = "objectID" ∨ key = "tags" ∨ key = "categories") :
    ∀ (specs : List String) (doc doc' : Doc) (ws : List String),
      (∀ s ∈ specs, 2 ≤ (jsSplit s ':').length) →
      applyFilterSpecs c doc specs = some (doc', ws) →
      lookupDoc doc' key = lookupDoc doc key := by
  intro specs
  induction specs with
  | nil =>
    intro doc doc' ws _ h
    simp only [applyFilterSpecs, Option.some.injEq, Prod.mk.injEq] at h
    rw [← h.1]
  | cons s specs ih =>
    intro doc doc' ws hall h
    cases h1 : applyFilterSpec c doc s with
    | none =>
      simp only [applyFilterSpecs, h1] at h
      exact Option.noConfusion h
    | some p =>
      obtain ⟨d1, w1⟩ := p
      cases h2 : applyFilterSpecs c d1 specs with
      | none =>
        simp only [applyFilterSpecs, h1, h2] at h
        exact Option.noConfusion h
      | some q =>
        obtain ⟨d2, w2⟩ := q
        simp only [applyFilterSpecs, h1, h2, Option.some.injEq, Prod.mk.injEq] at h
        obtain ⟨hd, hw⟩ := h
        subst hd
        rw [ih d1 d2 w2 (fun t ht => hall t (List.mem_cons_of_mem s ht)) h2,
          applyFilterSpec_lookup c doc s d1 w1 key hkey (hall s (List.mem_cons_self s specs)) h1]

/-! ## objectID and taxonomy values of the produced documents -/

theorem prepareContent_objectID (fields fwf tagFields : List String) (c : RawContent)
    (doc : Doc) (ws : List String)
    (htf : ∀ f ∈ tagFields, f = "tags" ∨ f = "categories")
    (hwf : ∀ s ∈ fwf, 2 ≤ (jsSplit s ':').length)
    (h : prepareContent fields fwf tagFields c = some (doc, ws)) :
    lookupDoc doc "objectID" = some (c.get "_id") := by
  cases hex : extractTaxonomies c
      (setKey (pick c fields) "objectID" (c.get "_id")) tagFields with
  | none =>
    simp only [prepareContent, hex] at h
    exact Option.noConfusion h
  | some doc1 =>
    simp only [prepareContent, hex] at h
    have hpres := extractTaxonomies_lookup c "objectID" tagFields _ doc1
      (fun f hf => by rcases htf f hf with rfl | rfl <;> decide) hex
    rw [applyFilterSpecs_lookup c "objectID" (Or.inl rfl) fwf doc1 doc ws hwf h, hpres]
    exact lookupDoc_setKey_self (pick c fields) "objectID" (c.get "_id")

theorem prepareContent_taxonomy (fields fwf tagFields : List String) (c : RawContent)
    (doc : Doc) (ws : List String) (field : String) (ts : List TaxTerm)
    (hfield : field = "tags" ∨ field = "categories")
    (hnd : tagFields.Nodup) (hmem : field ∈ tagFields)
    (hwf : ∀ s ∈ fwf, 2 ≤ (jsSplit s ':').length)
    (hget : c.get field = JValue.taxData ts)
    (h : prepareContent fields fwf tagFields c = some (doc, ws)) :
    lookupDoc doc field = some (JValue.arr (ts.map (fun t => JValue.str t.name))) := by
  cases hex : extractTaxonomies c
      (setKey (pick c fields) "objectID" (c.get "_id")) tagFields with
  | none =>
    simp only [prepareContent, hex] at h
    exact Option.noConfusion h
  | some doc1 =>
    simp only [prepareContent, hex] at h
    rw [applyFilterSpecs_lookup c field (Or.inr hfield) fwf doc1 doc ws hwf h]
    exact extractTaxonomies_mem c tagFields _ doc1 field ts hnd hmem hget hex

theorem prepareContentsGo_objectID (fields fwf tagFields : List String)
    (htf : ∀ f ∈ tagFields, f = "tags" ∨ f = "categories")
    (hwf : ∀ s ∈ fwf, 2 ≤ (jsSplit s ':').length) :
    ∀ (contents : List RawContent) (docs : List Doc) (ws : List String),
      prepareContentsGo fields fwf tagFields contents = some (docs, ws) →
      ∀ i, i < contents.length →
        lookupDoc (docs.getD i []) "objectID" =
          some ((contents.getD i (RawContent.mk [])).get "_id") := by
  intro contents
  induction contents with
  | nil => intro docs ws h i hi; simp at hi
  | cons c cs ih =>
    intro docs ws h i hi
    obtain ⟨d, w, ds, wss, h1, h2, rfl, rfl⟩ := prepareContentsGo_cons_inv _ _ _ _ _ _ _ h
    match i with
    | 0 =>
      simp only [List.getD_cons_zero]
      exact prepareContent_objectID fields fwf tagFields c d w htf hwf h1
    | i + 1 =>
      simp only [List.getD_cons_succ]
      apply ih ds wss h2 i
      rw [List.length_cons] at hi
      omega

theorem prepareContentsGo_taxonomy (fields fwf tagFields : List String)
    (field : String) (hfield : field = "tags" ∨ field = "categories")
    (hnd : tagFields.Nodup) (hmem : field ∈ tagFields)
    (hwf : ∀ s ∈ fwf, 2 ≤ (jsSplit s ':').length) :
    ∀ (contents : List RawContent) (docs : List Doc) (ws : List String),
      prepareContentsGo fields fwf tagFields contents = some (docs, ws) →
      ∀ i, i < contents.length → ∀ ts,
        (contents.getD i (RawContent.mk [])).get field = JValue.taxData ts →
        lookupDoc (docs.getD i []) field =
          some (JValue.arr (ts.map (fun t => JValue.str t.name))) := by
  intro contents
  induction contents with
  | nil => intro docs ws h i hi; simp at hi
  | cons c cs ih =>
    intro docs ws h i hi
    obtain ⟨d, w, ds, wss, h1, h2, rfl, rfl⟩ := prepareContentsGo_cons_inv _ _ _ _ _ _ _ h
    match i with
    | 0 =>
      intro ts hts
      simp only [List.getD_cons_zero]
      simp only [List.getD_cons_zero] at hts
      exact prepareContent_taxonomy fields fwf tagFields c d w field ts hfield hnd hmem
        hwf hts h1
    | i + 1 =>
      intro ts hts
      simp only [List.getD_cons_succ]
      simp only [List.getD_cons_succ] at hts
      apply ih ds wss h2 i ?_ ts hts
      rw [List.length_cons] at hi
      omega

/-- C2: for every record processed by the Content Transformer, the output
document's `objectID` is the record's `_id`, even when `objectID` is among
the selected plain fields (the identifier overwrites the selected value).
The filter-bearing specs are, as produced by `getFieldsWithFilters`, strings
containing `:`. -/
theorem prepareContents_objectID_claim (contents : List RawContent)
    (fields fieldsWithFilters : List String)
    (hwf : ∀ s ∈ fieldsWithFilters, hasColon s = true)
    (docs : List Doc) (ws : List String)
    (h : prepareContents contents fields fieldsWithFilters = some (docs, ws)) :
    ∀ i, i < contents.length →
      lookupDoc (docs.getD i []) "objectID" =
        some ((contents.getD i (RawContent.mk [])).get "_id") := by
  apply prepareContentsGo_objectID fields fieldsWithFilters _
    ?_ (fun s hs => hasColon_split s (hwf s hs)) contents docs ws h
  intro f hf
  have := (List.mem_filter.mp hf).1
  simpa using this

/-- Witness for C2 at a concrete record whose plain fields include
`objectID`. -/
theorem prepareContents_objectID_claim_witness :
    lookupDoc
      (([[("objectID", JValue.str "5"), ("contentStrip", JValue.str "x")]] : List Doc).getD 0 [])
      "objectID" =
      some ((([RawContent.mk [("_id", JValue.str "5"), ("title", JValue.str "T"),
          ("objectID", JValue.str "bogus"), ("content", JValue.str "<b>x</b>")]] :
          List RawContent).getD 0 (RawContent.mk [])).get "_id") :=
  prepareContents_objectID_claim
    [RawContent.mk [("_id", JValue.str "5"), ("title", JValue.str "T"),
      ("objectID", JValue.str "bogus"), ("content", JValue.str "<b>x</b>")]]
    ["objectID"] ["content:strip"] (by decide)
    [[("objectID", JValue.str "5"), ("contentStrip", JValue.str "x")]] [] rfl 0 (by decide)

/-- C3: when the plain-field selection includes a taxonomy field (`tags` or
`categories`) that the record carries, the output document's value for that
field is the array of taxonomy-term names only, in the order of the record's
taxonomy relation, all other per-term attributes discarded. -/
theorem prepareContents_taxonomy_claim (contents : List RawContent)
    (fields fieldsWithFilters : List String)
    (hwf : ∀ s ∈ fieldsWithFilters, hasColon s = true)
    (field : String) (hfield : field = "tags" ∨ field = "categories")
    (hsel : fields.contains field = true)
    (docs : List Doc) (ws : List String)
    (h : prepareContents contents fields fieldsWithFilters = some (docs, ws)) :
    ∀ i, i < contents.length → ∀ ts,
      (contents.getD i (RawContent.mk [])).get field = JValue.taxData ts →
      lookupDoc (docs.getD i []) field =
        some (JValue.arr (ts.map (fun t => JValue.str t.name))) := by
  apply prepareContentsGo_taxonomy fields fieldsWithFilters _ field hfield
    ?_ ?_ (fun s hs => hasColon_split s (hwf s hs)) contents docs ws h
  · exact List.Nodup.filter _ (by decide)
  · rw [List.mem_filter]
    exact ⟨by rcases hfield with rfl | rfl <;> simp, hsel⟩

/-- Witness for C3 at a concrete record carrying two tags with extra per-term
attributes. -/
theorem prepareContents_taxonomy_claim_witness :
    lookupDoc
      (([[("tags", JValue.arr [JValue.str "a", JValue.str "b"]),
          ("objectID", JValue.str "1")]] : List Doc).getD 0 [])
      "tags" =
      some (JValue.arr (([TaxTerm.mk "a" [("slug", "x")], TaxTerm.mk "b" []]).map
        (fun t => JValue.str t.name))) :=
  prepareContents_taxonomy_claim
    [RawContent.mk [("_id", JValue.str "1"),
      ("tags", JValue.taxData [TaxTerm.mk "a" [("slug", "x")], TaxTerm.mk "b" []])]]
    ["tags"] [] (by decide) "tags" (Or.inl rfl) rfl
    [[("tags", JValue.arr [JValue.str "a", JValue.str "b"]),
      ("objectID", JValue.str "1")]] [] rfl 0 (by decide) _ rfl

/-! ## Filter chains: left-to-right threading and key synthesis -/

theorem runFilterChain_append :
    ∀ (fs1 : List String) (v : JValue) (names : List String) (fs2 : List String),
      runFilterChain v names (fs1 ++ fs2) =
        (runFilterChain v names fs1).bind (fun p => runFilterChain p.1 p.2 fs2) := by
  intro fs1
  induction fs1 with
  | nil => intro v names fs2; rfl
  | cons f fs ih =>
    intro v names fs2
    cases ha : applyOneFilter v names f with
    | none => simp [runFilterChain, ha]
    | some p =>
      obtain ⟨v2, n2⟩ := p
      simp only [List.cons_append, runFilterChain, ha]
      exact ih v2 n2 fs2

/-- C6: filters apply strictly left to right — running the chain over
`fs1 ++ fs2` threads the output of `fs1` as the input of `fs2` — and the
final value is stored under the base field name concatenated with the
capitalized name of every applied filter, in application order; in
particular, for spec `"content:strip"` on input `"<b>hi</b>"` the output key
`contentStrip` holds `"hi"`. -/
theorem filter_chain_claim :
    (∀ (v : JValue) (names : List String) (fs1 fs2 : List String),
      runFilterChain v names (fs1 ++ fs2) =
        (runFilterChain v names fs1).bind (fun p => runFilterChain p.1 p.2 fs2)) ∧
    (∀ (v v' : JValue) (names names' : List String) (fs : List String),
      runFilterChain v names fs = some (v', names') →
      names' = names ++ fs.map (fun f => upperFirst ((jsSplit f ',').headD ""))) ∧
    prepareContents
      [RawContent.mk [("_id", JValue.str "1"), ("title", JValue.str "t"),
        ("content", JValue.str "<b>hi</b>")]] [] ["content:strip"] =
      some ([[("objectID", JValue.str "1"), ("contentStrip", JValue.str "hi")]], []) :=
  ⟨fun v names fs1 fs2 => runFilterChain_append fs1 v names fs2,
   fun v v' names names' fs h => (runFilterChain_names fs v names v' names' h).1,
   rfl⟩

/-- Witness for C6: the chain split and the key-name formula at a concrete
chain. -/
theorem filter_chain_claim_witness :
    (runFilterChain (JValue.str "<b>hi</b>") [] (["strip"] ++ ["truncate,0,1"]) =
      (runFilterChain (JValue.str "<b>hi</b>") [] ["strip"]).bind
        (fun p => runFilterChain p.1 p.2 ["truncate,0,1"])) ∧
    (["Strip"] : List String) =
      [] ++ (["strip"].map (fun f => upperFirst ((jsSplit f ',').headD ""))) :=
  ⟨filter_chain_claim.1 (JValue.str "<b>hi</b>") [] ["strip"] ["truncate,0,1"],
   filter_chain_claim.2.1 (JValue.str "<b>hi</b>") (JValue.str "hi") [] ["Strip"]
     ["strip"] rfl⟩

/-- C7: the built-in `truncate` filter is `post.substr(start, end)`, whose
second argument is a length, not an end index: for natural `start` and `end`
it yields the `end`-length substring beginning at `start`; in particular the
spec `"content:truncate,0,2"` on `"hello"` stores `"he"` under
`contentTruncate`. -/
theorem truncate_filter_claim :
    (∀ (s : String) (start len : Nat),
      jsSubstr s (start : Int) (len : Int) = String.mk ((s.toList.drop start).take len)) ∧
    prepareContents
      [RawContent.mk [("_id", JValue.str "1"), ("title", JValue.str "t"),
        ("content", JValue.str "hello")]] [] ["content:truncate,0,2"] =
      some ([[("objectID", JValue.str "1"), ("contentTruncate", JValue.str "he")]], []) := by
  constructor
  · intro s start len
    simp only [jsSubstr]
    rw [if_neg (by omega : ¬((start : Int) < 0))]
    have hmax : (max (len : Int) 0).toNat = len := by omega
    have hmin : (min (start : Int) ((s.length : Nat) : Int)).toNat = min start s.length := by
      omega
    rw [hmax, hmin]
    have hlen : s.toList.length = s.length := rfl
    by_cases hle : start ≤ s.length
    · rw [Nat.min_eq_left hle]
    · have hright : min start s.length = s.length := Nat.min_eq_right (by omega)
      rw [hright, List.drop_eq_nil_of_le (by omega), List.drop_eq_nil_of_le (by omega)]
  · rfl

/-! ## The orchestrator: clear step and zero-post short-circuit -/

/-- C8: unless suppressed by the `n` flag, the orchestrator issues the
clear-all request before any upload; a failed clear aborts the run with a
failure and no upload request; with the flag set, no clear request is issued
and the upload of every chunk of the transformed documents proceeds. -/
theorem algoliaCommand_clear_claim (fieldsConfig : FieldsConfig)
    (chunkSizeConfig : Option Nat) (posts pages : List RawContent) (a : Args)
    (env : RunEnv) (postDocs pageDocs : List Doc) (pws qws : List String)
    (hposts : posts ≠ [])
    (hp : prepareContents posts (getBasicFields fieldsConfig.post_fields)
      (getFieldsWithFilters fieldsConfig.post_fields) = some (postDocs, pws))
    (hq : prepareContents pages (getBasicFields fieldsConfig.page_fields)
      (getFieldsWithFilters fieldsConfig.page_fields) = some (pageDocs, qws)) :
    (a.n = false → env.clearOk = false →
      algoliaCommand fieldsConfig chunkSizeConfig posts pages (some a) env =
        ([IndexOp.clearObjects], CommandResult.clearError)) ∧
    (a.n = false → env.clearOk = true →
      algoliaCommand fieldsConfig chunkSizeConfig posts pages (some a) env =
        (IndexOp.clearObjects ::
          (splitIntoChunks (postDocs ++ pageDocs)
            (algoliaChunkSizeOf chunkSizeConfig)).map IndexOp.saveObjects,
         if (splitIntoChunks (postDocs ++ pageDocs)
              (algoliaChunkSizeOf chunkSizeConfig)).all env.saveOk then
           CommandResult.indexed postDocs.length
         else CommandResult.uploadError)) ∧
    (a.n = true →
      algoliaCommand fieldsConfig chunkSizeConfig posts pages (some a) env =
        ((splitIntoChunks (postDocs ++ pageDocs)
            (algoliaChunkSizeOf chunkSizeConfig)).map IndexOp.saveObjects,
         if (splitIntoChunks (postDocs ++ pageDocs)
              (algoliaChunkSizeOf chunkSizeConfig)).all env.saveOk then
           CommandResult.indexed postDocs.length
         else CommandResult.uploadError)) := by
  cases posts with
  | nil => exact absurd rfl hposts
  | cons p ps =>
    have hlen : (((p :: ps).length == 0) : Bool) = false := by simp
    refine ⟨?_, ?_, ?_⟩
    · intro hn hclear
      simp [algoliaCommand, hlen, hp, hq, hn, hclear]
    · intro hn hclear
      cases hall : (splitIntoChunks (postDocs ++ pageDocs)
          (algoliaChunkSizeOf chunkSizeConfig)).all env.saveOk with
      | true => simp [algoliaCommand, hlen, hp, hq, hn, hclear, hall]
      | false => simp [algoliaCommand, hlen, hp, hq, hn, hclear, hall]
    · intro hn
      cases hall : (splitIntoChunks (postDocs ++ pageDocs)
          (algoliaChunkSizeOf chunkSizeConfig)).all env.saveOk with
      | true => simp [algoliaCommand, hlen, hp, hq, hn, hall]
      | false => simp [algoliaCommand, hlen, hp, hq, hn, hall]

/-- Witness for C8: a concrete run with the clear step suppressed uploads the
single chunk and succeeds without a clear request. -/
theorem algoliaCommand_clear_claim_witness :
    algoliaCommand (FieldsConfig.mk ["title"] []) none
      [RawContent.mk [("_id", JValue.str "1")]] [] (some (Args.mk true))
      (RunEnv.mk true (fun _ => true)) =
      ([IndexOp.saveObjects [[("objectID", JValue.str "1")]]], CommandResult.indexed 1) :=
  (algoliaCommand_clear_claim (FieldsConfig.mk ["title"] []) none
    [RawContent.mk [("_id", JValue.str "1")]] [] (Args.mk true)
    (RunEnv.mk true (fun _ => true)) [[("objectID", JValue.str "1")]] [] [] []
    (by simp) rfl rfl).2.2 rfl

/-- C9: with zero published posts the orchestrator terminates early and
successfully — `return callback()` with no error — issuing neither a clear
nor an upload request, and without transforming the pages (the result is the
same whatever `pages` holds). -/
theorem algoliaCommand_no_posts_claim (fieldsConfig : FieldsConfig)
    (chunkSizeConfig : Option Nat) (pages : List RawContent) (args : Option Args)
    (env : RunEnv) :
    algoliaCommand fieldsConfig chunkSizeConfig [] pages args env =
      ([], CommandResult.noPosts) := rfl

end HexoAlgolia
